import Mathlib

/-!
Verification of the Profile Synchronization & Resilient Serialization Core
of `src/App.tsx`.

The development shallowly embeds the code of `App.tsx`:

* the `jsonReplacer` closure (App.tsx lines 13-52) combined with the
  ECMAScript `JSON.stringify` traversal it is passed to (App.tsx lines 113
  and 208) is embedded as `serVal` over an explicit object heap, because
  the replacer's behaviour depends on object identity (its `WeakSet`);
* the `JSON.parse` reviver (App.tsx lines 75-87) is embedded as `intern`
  over parsed JSON documents `J`;
* the guest default profile (App.tsx lines 95-111), the guest branch of
  `onAuthStateChanged` (lines 70-116), the signed-out branch (lines
  194-198), the avatar backfill (lines 126-141) and the `profileData`
  projection (lines 143-161) are embedded as pure functions over explicit
  state.

JSON text is modelled by its parse tree `J`: a value of type `J` is
exactly a syntactically valid JSON document, and a stored string that is
not valid JSON is modelled as the absence of such a tree.  JavaScript
`Date` objects are modelled by their civil UTC components (`DateTime`);
`Date.prototype.toISOString` and the ECMAScript date parser used by
`new Date(string)` are external built-ins, embedded as `isoString` and
`parseISO` for the canonical 24-character `YYYY-MM-DDTHH:MM:SS.mmmZ`
format that `toISOString` emits.  Per ECMA-262 `SerializeJSONProperty`,
`toJSON` is applied to a value *before* the replacer is called, so a
`Date` reaches `jsonReplacer` already converted to its ISO string; the
embedding reflects this ordering.
-/

namespace JsonProfile

/-! ### Instants (JavaScript `Date`, UTC civil components) -/

/-- A UTC instant as the civil components that `Date.prototype.toISOString`
prints.  Two equal `DateTime`s denote the same instant. -/
structure DateTime where
  year : Nat
  month : Nat
  day : Nat
  hour : Nat
  minute : Nat
  second : Nat
  millis : Nat
deriving DecidableEq

/-- Component ranges under which `toISOString` uses the plain 4-digit-year
24-character format (ECMA-262 Date Time String Format). -/
def wfDT (t : DateTime) : Bool :=
  decide (t.year < 10000) && decide (1 ≤ t.month) && decide (t.month ≤ 12) &&
  decide (1 ≤ t.day) && decide (t.day ≤ 31) && decide (t.hour < 24) &&
  decide (t.minute < 60) && decide (t.second < 60) && decide (t.millis < 1000)

/-- The decimal digit character for `n < 10` (code unit 48 + n). -/
def digitChar (n : Nat) : Char := Char.ofNat (48 + n)

/-- Numeric value of a decimal digit character. -/
def dv (c : Char) : Nat := c.toNat - 48

/-- Two-digit zero-padded rendering, as a character list. -/
def pad2L (n : Nat) : List Char := [digitChar (n / 10), digitChar (n % 10)]

/-- Three-digit zero-padded rendering, as a character list. -/
def pad3L (n : Nat) : List Char := [digitChar (n / 100), digitChar (n / 10 % 10), digitChar (n % 10)]

/-- Four-digit zero-padded rendering, as a character list. -/
def pad4L (n : Nat) : List Char :=
  [digitChar (n / 1000), digitChar (n / 100 % 10), digitChar (n / 10 % 10), digitChar (n % 10)]

/-- Embedding of `Date.prototype.toISOString`: the canonical
`YYYY-MM-DDTHH:MM:SS.mmmZ` rendering of the instant's UTC components. -/
def isoString (t : DateTime) : String :=
  String.mk (pad4L t.year ++ '-' :: pad2L t.month ++ '-' :: pad2L t.day ++
    'T' :: pad2L t.hour ++ ':' :: pad2L t.minute ++ ':' :: pad2L t.second ++
    '.' :: pad3L t.millis ++ ['Z'])

/-- Embedding of the ECMAScript date parser (`new Date(string)` followed by
the reviver's `!isNaN(d.getTime())` validity check, App.tsx lines 78-79),
restricted to the canonical 24-character format that `toISOString` emits.
Out-of-range components make an Invalid Date and yield `none`. -/
def parseISOChars : List Char → Option DateTime
  | [y1, y2, y3, y4, '-', m1, m2, '-', d1, d2, 'T',
     h1, h2, ':', i1, i2, ':', e1, e2, '.', f1, f2, f3, 'Z'] =>
    if y1.isDigit && y2.isDigit && y3.isDigit && y4.isDigit &&
       m1.isDigit && m2.isDigit && d1.isDigit && d2.isDigit &&
       h1.isDigit && h2.isDigit && i1.isDigit && i2.isDigit &&
       e1.isDigit && e2.isDigit && f1.isDigit && f2.isDigit && f3.isDigit then
      let y := dv y1 * 1000 + dv y2 * 100 + dv y3 * 10 + dv y4
      let mo := dv m1 * 10 + dv m2
      let d := dv d1 * 10 + dv d2
      let hh := dv h1 * 10 + dv h2
      let mi := dv i1 * 10 + dv i2
      let sec := dv e1 * 10 + dv e2
      let ms := dv f1 * 100 + dv f2 * 10 + dv f3
      if 1 ≤ mo ∧ mo ≤ 12 ∧ 1 ≤ d ∧ d ≤ 31 ∧ hh < 24 ∧ mi < 60 ∧ sec < 60 then
        some ⟨y, mo, d, hh, mi, sec, ms⟩
      else none
    else none
  | _ => none

/-- The date parser on a string: parse its character content. -/
def parseISO (s : String) : Option DateTime :=
  parseISOChars s.data

/-- Decimal digits of a natural number, most significant first
(the characters of the JavaScript decimal rendering of an array index). -/
def natDigits (n : Nat) : List Char :=
  if n < 10 then [digitChar n]
  else natDigits (n / 10) ++ [digitChar (n % 10)]
termination_by n
decreasing_by exact Nat.div_lt_self (by omega) (by omega)

/-- Decimal string of a natural number: the property key that
`JSON.parse`/`JSON.stringify` pass for an array element at that index. -/
def natStr (n : Nat) : String := String.mk (natDigits n)

/-! ### JSON documents and in-memory tree values -/

/-- A parsed JSON document: exactly the values representable as valid JSON
text.  Profile counters are integers, so numbers are modelled as `Int`. -/
inductive J where
  | null
  | bool (b : Bool)
  | num (n : Int)
  | str (s : String)
  | arr (elems : List J)
  | obj (fields : List (String × J))

/-- A tree-shaped in-memory value of the profile data model: primitives,
point-in-time values (`Date`), the set-of-strings collection (`Set<string>`;
modelled from the spec: `types.ts` is not in `src/`, and §3 of the spec
declares `communityPostFireReactions` a set of strings), and nested plain
composites.  `JSON.parse` output and the guest default profile are such
trees. -/
inductive DVal where
  | null
  | bool (b : Bool)
  | num (n : Int)
  | str (s : String)
  | date (t : DateTime)
  | strset (xs : List String)
  | arr (elems : List DVal)
  | obj (fields : List (String × DVal))

/-- The reviver's `dateKeys.includes(key)` test (App.tsx line 76-77). -/
def isDateKey (k : String) : Bool :=
  k == "createdAt" || k == "startDate" || k == "timestamp"

/-- The one set-valued field name (App.tsx line 83). -/
def reactionsKey : String := "communityPostFireReactions"

/-- First-occurrence deduplication: the element sequence produced by
`new Set(array)` iterated in insertion order. -/
def dedupFirst : List String → List String
  | [] => []
  | x :: xs => x :: dedupFirst (xs.filter (fun y => !(y == x)))
termination_by xs => xs.length
decreasing_by exact Nat.lt_succ_of_le (List.length_filter_le _ _)

/-- Views a list of decoded values as a list of strings when every element
is a string (the declared element type of the set field). -/
def asStrings : List DVal → Option (List String)
  | [] => some []
  | .str s :: xs => (asStrings xs).map (fun t => s :: t)
  | _ => none

/-- Boolean no-duplicates check on a string list. -/
def nodupB : List String → Bool
  | [] => true
  | x :: xs => !(xs.contains x) && nodupB xs

mutual

/-- Embedding of `JSON.parse(text, reviver)`'s internalization with the
reviver of App.tsx lines 75-87, applied to the parsed tree bottom-up as
ECMA-262 `InternalizeJSONProperty` does.  The reviver turns a string under
a date key into a `Date` when it parses as a valid date (lines 76-80), and
an array under `communityPostFireReactions` into a `Set` (lines 83-85);
every other value passes through unchanged (line 86). -/
def intern : String → J → DVal
  | _, .null => .null
  | _, .bool b => .bool b
  | _, .num n => .num n
  | k, .str s =>
    if isDateKey k then
      match parseISO s with
      | some t => .date t
      | none => .str s
    else .str s
  | k, .arr xs =>
    let ys := internElems 0 xs
    if k == reactionsKey then
      match asStrings ys with
      | some ss => .strset (dedupFirst ss)
      | none => .arr ys
    else .arr ys
  | _, .obj fs => .obj (internFields fs)

/-- Array elements are internalized under their decimal index keys. -/
def internElems : Nat → List J → List DVal
  | _, [] => []
  | i, x :: xs => intern (natStr i) x :: internElems (i + 1) xs

/-- Object members are internalized under their own keys. -/
def internFields : List (String × J) → List (String × DVal)
  | [] => []
  | (k, v) :: fs => (k, intern k v) :: internFields fs

end

/-- Decoding a stored snapshot: `JSON.parse(text, reviver)` on a
syntactically valid text, i.e. internalization from the root (key `""`). -/
def decodeDoc (j : J) : DVal := intern "" j

mutual

/-- The JSON document that encoding produces on a tree-shaped value:
primitives pass through, a `Date` becomes its ISO string (via its `toJSON`),
a `Set` becomes the array of its members in insertion order (App.tsx
line 34), and composites recurse.  `serVal` below is the actual encoder
over the object heap; `ser_alloc` proves that on tree-shaped (unshared)
values it produces exactly this document. -/
def encodeTree : DVal → J
  | .null => .null
  | .bool b => .bool b
  | .num n => .num n
  | .str s => .str s
  | .date t => .str (isoString t)
  | .strset xs => .arr (xs.map J.str)
  | .arr xs => .arr (encElems xs)
  | .obj fs => .obj (encFields fs)

/-- Elementwise `encodeTree` on array elements. -/
def encElems : List DVal → List J
  | [] => []
  | x :: xs => encodeTree x :: encElems xs

/-- Memberwise `encodeTree` on object members. -/
def encFields : List (String × DVal) → List (String × J)
  | [] => []
  | (k, v) :: fs => (k, encodeTree v) :: encFields fs

end

mutual

/-- Sufficient condition for the decode/encode round-trip, read off the
codec: a value contains only recognized shapes in recognized positions.
Dates sit under the keys the reviver re-hydrates and are in `toISOString`'s
plain format; the set sits exactly under its dedicated key, with no
duplicate members (a real `Set` has none); a string under a date key must
not itself parse as a date; arrays do not sit under the set key. -/
def okVal : String → DVal → Bool
  | _, .null => true
  | _, .bool _ => true
  | _, .num _ => true
  | k, .str s => !(isDateKey k) || (parseISO s).isNone
  | k, .date t => isDateKey k && wfDT t
  | k, .strset xs => (k == reactionsKey) && nodupB xs
  | k, .arr xs => !(k == reactionsKey) && okElems 0 xs
  | _, .obj fs => okFields fs

/-- Array elements are judged under their decimal index keys. -/
def okElems : Nat → List DVal → Bool
  | _, [] => true
  | i, x :: xs => okVal (natStr i) x && okElems (i + 1) xs

/-- Object members are judged under their own keys. -/
def okFields : List (String × DVal) → Bool
  | [] => true
  | (k, v) :: fs => okVal k v && okFields fs

end

/-! ### The encoder over an explicit object heap

`jsonReplacer` tracks object identity in a `WeakSet`, so the encoder is
embedded over an explicit heap: a list of composite nodes addressed by
index.  A `GVal` is a JavaScript value: a primitive, or a reference to a
heap node.  Sharing and cycles are references to the same address. -/

/-- A JavaScript value: primitive or reference into the heap. -/
inductive GVal where
  | null
  | bool (b : Bool)
  | num (n : Int)
  | str (s : String)
  | ref (a : Nat)

/-- A heap node: a `Date`, a `Set` of strings, an array, a plain object, or
an object of unrecognized shape (`Object.prototype.toString` tag other than
`[object Object]`, e.g. a `Map` or a backend handle) carrying its tag. -/
inductive GNode where
  | date (t : DateTime)
  | strset (xs : List String)
  | arr (elems : List GVal)
  | obj (fields : List (String × GVal))
  | exotic (tag : String)

/-- `SerializeJSONArray`: elements are serialized in order through the
given one-element serializer, threading the visited set; an element for
which the replacer returned undefined is rendered as `null` (ECMA-262). -/
def serElems (f : List Nat → GVal → Option (Option J × List Nat)) :
    List GVal → List Nat → Option (List J × List Nat)
  | [], seen => some ([], seen)
  | v :: vs, seen =>
    match f seen v with
    | none => none
    | some (oj, seen1) =>
      match serElems f vs seen1 with
      | none => none
      | some (js, seen2) => some (oj.getD J.null :: js, seen2)

/-- `SerializeJSONObject`: members are serialized in insertion order,
threading the visited set; a member for which the replacer returned
undefined is omitted from the output (ECMA-262). -/
def serFields (f : List Nat → GVal → Option (Option J × List Nat)) :
    List (String × GVal) → List Nat → Option (List (String × J) × List Nat)
  | [], seen => some ([], seen)
  | (k, v) :: fs, seen =>
    match f seen v with
    | none => none
    | some (none, seen1) => serFields f fs seen1
    | some (some j, seen1) =>
      match serFields f fs seen1 with
      | none => none
      | some (jfs, seen2) => some ((k, j) :: jfs, seen2)

/-- Embedding of ECMA-262 `SerializeJSONProperty` for `JSON.stringify(value,
jsonReplacer())` (App.tsx lines 13-52): given the visited set `seen` (the
closure's `WeakSet`), produce the serialized document for one value (`none`
in the first component means the replacer returned undefined, so the holder
omits the member or renders `null` in an array).

Per ECMA-262, `toJSON` runs before the replacer, so a `Date` node becomes
its ISO string without ever being offered to the replacer — the replacer's
own `value instanceof Date` branch (line 30) is unreachable and a `Date` is
never added to the `WeakSet`.  Every other non-null object is checked
against the set (line 21) and added (line 27) before shape dispatch: a
`Set` becomes `Array.from(value)` (line 34), arrays and plain objects pass
through for recursion (line 44), and any other object is discarded
(line 50).  The closure's `WeakSet` is threaded, never cleared.  `fuel`
bounds the recursion depth; `serVal_total` proves `heap size + 1` always
suffices, i.e. the real recursion terminates.  A dangling reference cannot
arise from a JavaScript value and is treated as omitted. -/
def serVal (h : List GNode) : Nat → List Nat → GVal → Option (Option J × List Nat)
  | _, seen, .null => some (some .null, seen)
  | _, seen, .bool b => some (some (.bool b), seen)
  | _, seen, .num n => some (some (.num n), seen)
  | _, seen, .str s => some (some (.str s), seen)
  | 0, _, .ref _ => none
  | fuel + 1, seen, .ref a =>
    match h[a]? with
    | none => some (none, seen)
    | some (.date t) => some (some (.str (isoString t)), seen)
    | some (.strset xs) =>
      if a ∈ seen then some (none, seen)
      else some (some (.arr (xs.map J.str)), a :: seen)
    | some (.arr es) =>
      if a ∈ seen then some (none, seen)
      else
        match serElems (fun s v => serVal h fuel s v) es (a :: seen) with
        | none => none
        | some (js, seen1) => some (some (.arr js), seen1)
    | some (.obj fs) =>
      if a ∈ seen then some (none, seen)
      else
        match serFields (fun s v => serVal h fuel s v) fs (a :: seen) with
        | none => none
        | some (jfs, seen1) => some (some (.obj jfs), seen1)
    | some (.exotic _) =>
      if a ∈ seen then some (none, seen)
      else some (none, a :: seen)

/-- One whole `JSON.stringify(value, jsonReplacer())` call on a heap value,
with the proven-sufficient fuel.  The outer `Option` is termination of the
model's recursion; the inner `Option J` is the produced document
(`none` when the root itself was discarded, i.e. `stringify` returned
undefined). -/
def stringifyG (h : List GNode) (v : GVal) : Option (Option J) :=
  (serVal h (h.length + 1) [] v).map (fun p => p.1)

/-! ### Allocating a tree value into the heap -/

mutual

/-- Number of composite objects in a tree value (the heap nodes its
allocation creates). -/
def csize : DVal → Nat
  | .null => 0
  | .bool _ => 0
  | .num _ => 0
  | .str _ => 0
  | .date _ => 1
  | .strset _ => 1
  | .arr xs => 1 + csizeElems xs
  | .obj fs => 1 + csizeFields fs

/-- Total composite count of array elements. -/
def csizeElems : List DVal → Nat
  | [] => 0
  | x :: xs => csize x + csizeElems xs

/-- Total composite count of object members. -/
def csizeFields : List (String × DVal) → Nat
  | [] => 0
  | (_, v) :: fs => csize v + csizeFields fs

end

mutual

/-- Allocates a tree value into heap nodes starting at address `b`: every
composite gets a fresh address (children first, container last), exactly as
building a JavaScript value from distinct literals does.  Returns the node
block and the value referencing it. -/
def allocVal : DVal → Nat → List GNode × GVal
  | .null, _ => ([], .null)
  | .bool b, _ => ([], .bool b)
  | .num n, _ => ([], .num n)
  | .str s, _ => ([], .str s)
  | .date t, b => ([.date t], .ref b)
  | .strset xs, b => ([.strset xs], .ref b)
  | .arr xs, b =>
    let p := allocElems xs b
    (p.1 ++ [.arr p.2], .ref (b + p.1.length))
  | .obj fs, b =>
    let p := allocFields fs b
    (p.1 ++ [.obj p.2], .ref (b + p.1.length))

/-- Allocates array elements left to right in consecutive blocks. -/
def allocElems : List DVal → Nat → List GNode × List GVal
  | [], _ => ([], [])
  | x :: xs, b =>
    let p := allocVal x b
    let q := allocElems xs (b + p.1.length)
    (p.1 ++ q.1, p.2 :: q.2)

/-- Allocates object members left to right in consecutive blocks. -/
def allocFields : List (String × DVal) → Nat → List GNode × List (String × GVal)
  | [], _ => ([], [])
  | (k, x) :: fs, b =>
    let p := allocVal x b
    let q := allocFields fs (b + p.1.length)
    (p.1 ++ q.1, (k, p.2) :: q.2)

end

/-- The heap of a tree value allocated from address 0. -/
def heapOf (x : DVal) : List GNode := (allocVal x 0).1

/-- The root reference of a tree value allocated from address 0. -/
def rootOf (x : DVal) : GVal := (allocVal x 0).2

/-- Encoding a tree-shaped in-memory value: `JSON.stringify(x,
jsonReplacer())` on its allocation, `none` if the root is discarded. -/
def encodeDoc (x : DVal) : Option J :=
  match serVal (heapOf x) ((heapOf x).length + 1) [] (rootOf x) with
  | some (some j, _) => some j
  | _ => none

/-- The heap segment condition: the nodes `ns` sit in `h` at consecutive
addresses starting at `b`. -/
def segAt (h : List GNode) (b : Nat) (ns : List GNode) : Prop :=
  ∀ i, (hi : i < ns.length) → h[b + i]? = some ns[i]

/-- The valid addresses not yet visited; its cardinality bounds the
remaining recursion of `serVal`. -/
def unseenF (h : List GNode) (seen : List Nat) : Finset Nat :=
  (Finset.range h.length).filter (fun a => a ∉ seen)

/-! ### The local snapshot store and the synchronizer's state -/

/-- The browser `localStorage`, restricted to what the core reads and
writes: a key-value store of strings, each stored string modelled by its
JSON parse (`none` when the stored text is not syntactically valid JSON). -/
abbrev LocalStore := List (String × Option J)

/-- `localStorage.getItem`. -/
def lsGet : LocalStore → String → Option (Option J)
  | [], _ => none
  | (k, v) :: rest, key => if k = key then some v else lsGet rest key

/-- `localStorage.removeItem`. -/
def lsRemove : LocalStore → String → LocalStore
  | [], _ => []
  | (k, v) :: rest, key =>
    if k = key then lsRemove rest key else (k, v) :: lsRemove rest key

/-- `localStorage.setItem`. -/
def lsSet (s : LocalStore) (key : String) (v : Option J) : LocalStore :=
  (key, v) :: lsRemove s key

/-- The synchronizer's state: the held profile (`setUserProfile`), the
local store, and the loading flag. -/
structure AppState where
  userProfile : Option DVal
  store : LocalStore
  loading : Bool

/-- The guest default profile (App.tsx lines 95-111): `زائر ` followed by
the first five characters of the uid, creation time `now`, all flags false,
all counters 0, all collections empty, and the reactions field an empty
set.  Fields are listed in source order. -/
def guestDefault (uid : String) (now : DateTime) : DVal :=
  .obj [
    ("uid", .str uid),
    ("displayName", .str ("زائر " ++ uid.take 5)),
    ("createdAt", .date now),
    ("isAdmin", .bool false),
    ("isMuted", .bool false),
    ("commitmentDocument", .str ""),
    ("blockedUsers", .arr []),
    ("emergencyIndex", .num 0),
    ("urgeIndex", .num 0),
    ("storyIndex", .num 0),
    ("journalEntries", .arr []),
    ("habits", .arr []),
    ("followUpLogs", .obj []),
    (reactionsKey, .strset [])]

/-- JavaScript falsiness of a decoded value (`if (!guestProfile)`). -/
def dvalFalsy : DVal → Bool
  | .null => true
  | .bool b => !b
  | .num n => n == 0
  | .str s => s == ""
  | _ => false

/-- Falsiness of the `guestProfile` variable: still `null`, or bound to a
falsy decoded value. -/
def optFalsy : Option DVal → Bool
  | none => true
  | some p => dvalFalsy p

/-- Field lookup in a decoded object value. -/
def dvalField : DVal → String → Option DVal
  | .obj fs, key => lookupField fs key
  | _, _ => none
where
  lookupField : List (String × DVal) → String → Option DVal
    | [], _ => none
    | (k, v) :: fs, key => if k = key then some v else lookupField fs key

/-- The anonymous-user branch of `onAuthStateChanged` (App.tsx lines
70-116): try to read and decode the stored snapshot — a present but
syntactically invalid text makes `JSON.parse` throw, and the catch block
logs and removes the item (lines 89-92), surfacing nothing; if no profile
was obtained (`if (!guestProfile)`), derive the guest default and store its
encoding (lines 94-114); finally hold the profile and stop loading.  The
function is total: no error escapes this branch. -/
def guestStep (uid : String) (now : DateTime) (st : AppState) : AppState :=
  let attempt : Option DVal × LocalStore :=
    match lsGet st.store "guestProfile" with
    | none => (none, st.store)
    | some none => (none, lsRemove st.store "guestProfile")
    | some (some j) => (some (decodeDoc j), st.store)
  if optFalsy attempt.1 then
    let gp := guestDefault uid now
    ⟨some gp, lsSet attempt.2 "guestProfile" (encodeDoc gp), false⟩
  else
    ⟨attempt.1, attempt.2, false⟩

/-- The signed-out branch of `onAuthStateChanged` (App.tsx lines 194-198):
discard the held profile, purge the guest snapshot, stop loading. -/
def signedOutStep (st : AppState) : AppState :=
  ⟨none, lsRemove st.store "guestProfile", false⟩

/-! ### The authenticated projection and the avatar pick -/

/-- An existing remote record (`docSnap.data()`): raw fields, each possibly
absent. -/
structure RemoteData where
  displayName : Option String
  email : Option String
  photoURL : Option String
  createdAt : Option DateTime
  startDate : Option DateTime
  isAdmin : Option Bool
  isMuted : Option Bool
  role : Option String
  commitmentDocument : Option String
  blockedUsers : Option (List String)
  emergencyIndex : Option Int
  urgeIndex : Option Int
  storyIndex : Option Int

/-- The in-memory projection of an existing remote record (the
`profileData` literal, App.tsx lines 143-161).  `displayName`, `email` and
`photoURL` remain optional: the code copies them verbatim without a
default. -/
structure ProfileProj where
  uid : String
  displayName : Option String
  email : Option String
  photoURL : Option String
  createdAt : DateTime
  startDate : Option DateTime
  isAdmin : Bool
  isMuted : Bool
  role : Option String
  commitmentDocument : String
  blockedUsers : List String
  emergencyIndex : Int
  urgeIndex : Int
  storyIndex : Int

/-- Embedding of the `profileData` projection (App.tsx lines 143-161):
`displayName`, `email`, `photoURL`, `startDate` and `role` verbatim
(absent stays absent), `createdAt` defaulted to the current time
(`new Date()`), booleans to `false`, `commitmentDocument` to `""`,
`blockedUsers` to `[]`, counters to `0`. -/
def projectProfile (uid : String) (now : DateTime) (data : RemoteData) : ProfileProj :=
  ⟨uid,
   data.displayName,
   data.email,
   data.photoURL,
   data.createdAt.getD now,
   data.startDate,
   data.isAdmin.getD false,
   data.isMuted.getD false,
   data.role,
   data.commitmentDocument.getD "",
   data.blockedUsers.getD [],
   data.emergencyIndex.getD 0,
   data.urgeIndex.getD 0,
   data.storyIndex.getD 0⟩

/-- `user.uid.charCodeAt(0)` for a nonempty id (the claims' scenarios all
have a nonempty identity id; `charCodeAt` on an empty string is NaN and out
of the model). -/
def firstCharCode (uid : String) : Nat :=
  match uid.data with
  | [] => 0
  | c :: _ => c.toNat

/-- The deterministic avatar index (App.tsx line 128):
`user.uid.charCodeAt(0) % AVATAR_OPTIONS.length`. -/
def pickAvatarIndex (uid : String) (n : Nat) : Nat := firstCharCode uid % n

/-- The deterministic avatar pick (App.tsx lines 128-129).  The candidate
list is a parameter: `AVATAR_OPTIONS` lives in
`components/ui/AvatarPickerModal.tsx`, which is not under `src/`; per the
spec (§4.2) it is a fixed ordered list of N candidates. -/
def pickAvatar (uid : String) (avatars : List String) : String :=
  avatars.getD (pickAvatarIndex uid avatars.length) ""

/-- Outcome of the existing-record branch of the snapshot callback: the
immediately-held projection, the value written to the identity provider's
profile (`updateProfile`), and the value written to the remote record
(`updateDoc`).  Both writes are fire-and-forget; their failures are only
logged (App.tsx lines 132-137). -/
structure AuthResult where
  profile : ProfileProj
  authUpdate : Option String
  docUpdate : Option String

/-- Whether `!data.photoURL` holds: the field is absent or the empty
string. -/
def falsyOptStr : Option String → Bool
  | none => true
  | some s => s == ""

/-- The existing-record branch of the `onSnapshot` callback (App.tsx lines
122-163): when the record has no usable avatar, pick one deterministically,
issue the two background writes, and project with the picked value so the
caller never observes an empty avatar; otherwise project the record as
is. -/
def authExistingStep (uid : String) (now : DateTime) (avatars : List String)
    (data : RemoteData) : AuthResult :=
  if falsyOptStr data.photoURL then
    let url := pickAvatar uid avatars
    ⟨projectProfile uid now { data with photoURL := some url }, some url, some url⟩
  else
    ⟨projectProfile uid now data, none, none⟩

/-- Whether a JavaScript value is a primitive (not an object reference). -/
def isPrimG : GVal → Bool
  | .ref _ => false
  | _ => true

/-- The document a primitive value serializes to (unused on references). -/
def primJ : GVal → J
  | .null => .null
  | .bool b => .bool b
  | .num n => .num n
  | .str s => .str s
  | .ref _ => .null

/-! ### Fixtures for the cycle family and concrete demonstrations -/

/-- A cyclic heap of `n` plain objects: node `i`'s single member `next`
references node `(i+1) % n`, closing a cycle of length exactly `n`. -/
def cycleHeap (n : Nat) : List GNode :=
  (List.range n).map (fun i => GNode.obj [("next", GVal.ref ((i + 1) % n))])

/-- The document a cycle of length `k+1` encodes to: `k+1` nested `next`
objects with the innermost, back-referencing member omitted. -/
def nestedNext : Nat → J
  | 0 => .obj []
  | k + 1 => .obj [("next", nestedNext k)]

/-- The visited set after descending through cycle nodes `0, …, i-1`. -/
def revSeen : Nat → List Nat
  | 0 => []
  | i + 1 => i :: revSeen i

/-- A concrete instant for demonstrations. -/
def t0 : DateTime := ⟨2024, 1, 2, 3, 4, 5, 6⟩

/-- A heap in which one `Date` object is referenced from two members of the
same object — sharing without a cycle. -/
def sharedDateHeap : List GNode :=
  [.date t0, .obj [("a", .ref 0), ("b", .ref 0)]]

/-- A heap in which one `Set` object is referenced from two members of the
same object — sharing without a cycle. -/
def sharedSetHeap : List GNode :=
  [.strset ["x"], .obj [("a", .ref 0), ("b", .ref 0)]]

/-- An existing remote record with every field absent. -/
def emptyRecord : RemoteData :=
  ⟨none, none, none, none, none, none, none, none, none, none, none, none, none⟩

end JsonProfile

namespace JsonProfile

theorem digitChar_isDigit {n : Nat} (h : n < 10) : (digitChar n).isDigit = true := by
  interval_cases n <;> rfl

theorem dv_digitChar {n : Nat} (h : n < 10) : dv (digitChar n) = n := by
  interval_cases n <;> rfl

theorem parseISO_isoString (t : DateTime) (h : wfDT t = true) :
    parseISO (isoString t) = some t := by
  obtain ⟨y, mo, d, hh, mi, sec, ms⟩ := t
  simp only [wfDT, Bool.and_eq_true, decide_eq_true_eq] at h
  obtain ⟨⟨⟨⟨⟨⟨⟨⟨h1, h2⟩, h3⟩, h4⟩, h5⟩, h6⟩, h7⟩, h8⟩, h9⟩ := h
  have hdata : (isoString ⟨y, mo, d, hh, mi, sec, ms⟩).data =
      [digitChar (y / 1000), digitChar (y / 100 % 10), digitChar (y / 10 % 10),
       digitChar (y % 10), '-', digitChar (mo / 10), digitChar (mo % 10), '-',
       digitChar (d / 10), digitChar (d % 10), 'T', digitChar (hh / 10),
       digitChar (hh % 10), ':', digitChar (mi / 10), digitChar (mi % 10), ':',
       digitChar (sec / 10), digitChar (sec % 10), '.', digitChar (ms / 100),
       digitChar (ms / 10 % 10), digitChar (ms % 10), 'Z'] := rfl
  rw [parseISO, hdata]
  have e1 : (digitChar (y / 1000)).isDigit = true := digitChar_isDigit (by omega)
  have e2 : (digitChar (y / 100 % 10)).isDigit = true := digitChar_isDigit (by omega)
  have e3 : (digitChar (y / 10 % 10)).isDigit = true := digitChar_isDigit (by omega)
  have e4 : (digitChar (y % 10)).isDigit = true := digitChar_isDigit (by omega)
  have e5 : (digitChar (mo / 10)).isDigit = true := digitChar_isDigit (by omega)
  have e6 : (digitChar (mo % 10)).isDigit = true := digitChar_isDigit (by omega)
  have e7 : (digitChar (d / 10)).isDigit = true := digitChar_isDigit (by omega)
  have e8 : (digitChar (d % 10)).isDigit = true := digitChar_isDigit (by omega)
  have e9 : (digitChar (hh / 10)).isDigit = true := digitChar_isDigit (by omega)
  have e10 : (digitChar (hh % 10)).isDigit = true := digitChar_isDigit (by omega)
  have e11 : (digitChar (mi / 10)).isDigit = true := digitChar_isDigit (by omega)
  have e12 : (digitChar (mi % 10)).isDigit = true := digitChar_isDigit (by omega)
  have e13 : (digitChar (sec / 10)).isDigit = true := digitChar_isDigit (by omega)
  have e14 : (digitChar (sec % 10)).isDigit = true := digitChar_isDigit (by omega)
  have e15 : (digitChar (ms / 100)).isDigit = true := digitChar_isDigit (by omega)
  have e16 : (digitChar (ms / 10 % 10)).isDigit = true := digitChar_isDigit (by omega)
  have e17 : (digitChar (ms % 10)).isDigit = true := digitChar_isDigit (by omega)
  have d1 : dv (digitChar (y / 1000)) = y / 1000 := dv_digitChar (by omega)
  have d2 : dv (digitChar (y / 100 % 10)) = y / 100 % 10 := dv_digitChar (by omega)
  have d3 : dv (digitChar (y / 10 % 10)) = y / 10 % 10 := dv_digitChar (by omega)
  have d4 : dv (digitChar (y % 10)) = y % 10 := dv_digitChar (by omega)
  have d5 : dv (digitChar (mo / 10)) = mo / 10 := dv_digitChar (by omega)
  have d6 : dv (digitChar (mo % 10)) = mo % 10 := dv_digitChar (by omega)
  have d7 : dv (digitChar (d / 10)) = d / 10 := dv_digitChar (by omega)
  have d8 : dv (digitChar (d % 10)) = d % 10 := dv_digitChar (by omega)
  have d9 : dv (digitChar (hh / 10)) = hh / 10 := dv_digitChar (by omega)
  have d10 : dv (digitChar (hh % 10)) = hh % 10 := dv_digitChar (by omega)
  have d11 : dv (digitChar (mi / 10)) = mi / 10 := dv_digitChar (by omega)
  have d12 : dv (digitChar (mi % 10)) = mi % 10 := dv_digitChar (by omega)
  have d13 : dv (digitChar (sec / 10)) = sec / 10 := dv_digitChar (by omega)
  have d14 : dv (digitChar (sec % 10)) = sec % 10 := dv_digitChar (by omega)
  have d15 : dv (digitChar (ms / 100)) = ms / 100 := dv_digitChar (by omega)
  have d16 : dv (digitChar (ms / 10 % 10)) = ms / 10 % 10 := dv_digitChar (by omega)
  have d17 : dv (digitChar (ms % 10)) = ms % 10 := dv_digitChar (by omega)
  simp only [parseISOChars, e1, e2, e3, e4, e5, e6, e7, e8, e9, e10, e11, e12, e13,
    e14, e15, e16, e17, Bool.and_self, if_true, d1, d2, d3, d4, d5, d6, d7, d8, d9,
    d10, d11, d12, d13, d14, d15, d16, d17]
  rw [if_pos (by omega)]
  simp only [Option.some.injEq, DateTime.mk.injEq]
  refine ⟨by omega, by omega, by omega, by omega, by omega, by omega, by omega⟩

theorem natDigits_digit : ∀ n, ∀ c ∈ natDigits n, c.isDigit = true := by
  intro n
  induction n using Nat.strong_induction_on with
  | _ n ih =>
    rw [natDigits]
    split
    · next hn =>
      intro c hc
      rw [List.mem_singleton.mp hc]
      exact digitChar_isDigit hn
    · next hn =>
      intro c hc
      rcases List.mem_append.mp hc with h1 | h2
      · exact ih (n / 10) (Nat.div_lt_self (by omega) (by omega)) c h1
      · rw [List.mem_singleton.mp h2]
        exact digitChar_isDigit (Nat.mod_lt _ (by omega))

theorem natStr_ne (n : Nat) (k : String) (c : Char) (hc : c ∈ k.data)
    (hcd : c.isDigit = false) : natStr n ≠ k := by
  intro h
  have hdat : natDigits n = k.data := by
    have := congrArg String.data h
    exact this
  rw [← hdat] at hc
  rw [natDigits_digit n c hc] at hcd
  cases hcd

theorem natStr_not_special (n : Nat) :
    isDateKey (natStr n) = false ∧ (natStr n == reactionsKey) = false := by
  have k1 : natStr n ≠ "createdAt" := natStr_ne n _ 'c' (by decide) (by decide)
  have k2 : natStr n ≠ "startDate" := natStr_ne n _ 's' (by decide) (by decide)
  have k3 : natStr n ≠ "timestamp" := natStr_ne n _ 't' (by decide) (by decide)
  have k4 : natStr n ≠ reactionsKey := natStr_ne n _ 'c' (by decide) (by decide)
  constructor
  · simp [isDateKey, k1, k2, k3]
  · simp [k4]


theorem contains_false_ne (xs : List String) (x : String) (h : xs.contains x = false) :
    ∀ y ∈ xs, (y == x) = false := by
  intro y hy
  rcases hbe : (y == x) with _ | _
  · rfl
  · exfalso
    have hyx : y = x := by simpa using hbe
    subst hyx
    have : xs.contains y = true := by
      simpa [List.contains] using List.elem_iff.mpr hy
    rw [this] at h
    cases h

theorem dedupFirst_nodup : ∀ xs, nodupB xs = true → dedupFirst xs = xs := by
  intro xs
  induction xs with
  | nil => intro _; simp [dedupFirst]
  | cons x xs ih =>
    intro h
    simp only [nodupB, Bool.and_eq_true, Bool.not_eq_true'] at h
    obtain ⟨hcon, hnd⟩ := h
    have hfil : xs.filter (fun y => !(y == x)) = xs := by
      apply List.filter_eq_self.mpr
      intro a ha
      simp [contains_false_ne xs x hcon a ha]
    simp [dedupFirst, hfil, ih hnd]

theorem strset_elems (xs : List String) : ∀ i, internElems i (List.map J.str xs) = List.map DVal.str xs := by
  induction xs with
  | nil => intro i; simp [internElems]
  | cons s xs ih =>
    intro i
    simp [internElems, intern, (natStr_not_special i).1, ih]

theorem asStrings_map (xs : List String) : asStrings (List.map DVal.str xs) = some xs := by
  induction xs with
  | nil => simp [asStrings]
  | cons s xs ih => simp [asStrings, ih]

theorem intern_enc_aux : ∀ N, ∀ (x : DVal), sizeOf x ≤ N → ∀ k, okVal k x = true →
    intern k (encodeTree x) = x := by
  intro N
  induction N using Nat.strong_induction_on with
  | _ N ih =>
    intro x hx k hok
    cases x with
    | null => rfl
    | bool b => rfl
    | num n => rfl
    | str s =>
      simp only [okVal, Bool.or_eq_true, Bool.not_eq_true'] at hok
      rcases hok with hk | hp
      · simp [encodeTree, intern, hk]
      · rcases hdk : isDateKey k with _ | _
        · simp [encodeTree, intern, hdk]
        · have : parseISO s = none := by
            rcases hps : parseISO s with _ | t
            · rfl
            · rw [hps] at hp; cases hp
          simp [encodeTree, intern, hdk, this]
    | date t =>
      simp only [okVal, Bool.and_eq_true] at hok
      simp [encodeTree, intern, hok.1, parseISO_isoString t hok.2]
    | strset xs =>
      simp only [okVal, Bool.and_eq_true] at hok
      simp [encodeTree, intern, strset_elems, asStrings_map, hok.1,
        dedupFirst_nodup xs hok.2]
    | arr xs =>
      simp only [okVal, Bool.and_eq_true, Bool.not_eq_true'] at hok
      have hmem : ∀ y ∈ xs, sizeOf y < N := by
        intro y hy
        have h1 : sizeOf y < sizeOf xs := List.sizeOf_lt_of_mem hy
        have h2 : sizeOf (DVal.arr xs) = 1 + sizeOf xs := by simp
        omega
      have helems : ∀ (ys : List DVal), (∀ y ∈ ys, sizeOf y < N) →
          ∀ i, okElems i ys = true → internElems i (encElems ys) = ys := by
        intro ys
        induction ys with
        | nil => intro _ i _; simp [encElems, internElems]
        | cons y ys ihy =>
          intro hsz i hOK
          simp only [okElems, Bool.and_eq_true] at hOK
          have hrec : intern (natStr i) (encodeTree y) = y :=
            ih (sizeOf y) (hsz y (List.mem_cons_self y ys)) y le_rfl (natStr i) hOK.1
          simp [encElems, internElems, hrec,
            ihy (fun z hz => hsz z (List.mem_cons_of_mem y hz)) (i + 1) hOK.2]
      simp [encodeTree, intern, hok.1, helems xs hmem 0 hok.2]
    | obj fs =>
      simp only [okVal] at hok
      have hmem : ∀ kv ∈ fs, sizeOf kv.2 < N := by
        intro kv hkv
        have h1 : sizeOf kv < sizeOf fs := List.sizeOf_lt_of_mem hkv
        have h2 : sizeOf (DVal.obj fs) = 1 + sizeOf fs := by simp
        obtain ⟨k1, v⟩ := kv
        have h3 : sizeOf (k1, v) = 1 + sizeOf k1 + sizeOf v := by simp
        simp only at h1 ⊢
        omega
      have hfields : ∀ (gs : List (String × DVal)), (∀ kv ∈ gs, sizeOf kv.2 < N) →
          okFields gs = true → internFields (encFields gs) = gs := by
        intro gs
        induction gs with
        | nil => intro _ _; simp [encFields, internFields]
        | cons kv gs ihg =>
          obtain ⟨k1, v⟩ := kv
          intro hsz hOK
          simp only [okFields, Bool.and_eq_true] at hOK
          have hrec : intern k1 (encodeTree v) = v :=
            ih (sizeOf v) (hsz (k1, v) (List.mem_cons_self _ gs)) v le_rfl k1 hOK.1
          simp [encFields, internFields, hrec,
            ihg (fun z hz => hsz z (List.mem_cons_of_mem _ hz)) hOK.2]
      simp [encodeTree, intern, hfields fs hmem hok]

theorem intern_encodeTree (x : DVal) (k : String) (hok : okVal k x = true) :
    intern k (encodeTree x) = x :=
  intern_enc_aux (sizeOf x) x le_rfl k hok


theorem unseen_mono (h : List GNode) {s1 s2 : List Nat} (hsub : s1 ⊆ s2) :
    (unseenF h s2).card ≤ (unseenF h s1).card := by
  apply Finset.card_le_card
  intro a ha
  simp only [unseenF, Finset.mem_filter, Finset.mem_range] at ha ⊢
  exact ⟨ha.1, fun hc => ha.2 (hsub hc)⟩

theorem unseen_insert_lt (h : List GNode) {seen : List Nat} {a : Nat}
    (ha : a < h.length) (hns : a ∉ seen) :
    (unseenF h (a :: seen)).card < (unseenF h seen).card := by
  apply Finset.card_lt_card
  rw [Finset.ssubset_def]
  constructor
  · intro b hb
    simp only [unseenF, Finset.mem_filter, Finset.mem_range, List.mem_cons] at hb ⊢
    exact ⟨hb.1, fun hc => hb.2 (Or.inr hc)⟩
  · intro hsub
    have hmem : a ∈ unseenF h (a :: seen) := by
      apply hsub
      simp only [unseenF, Finset.mem_filter, Finset.mem_range]
      exact ⟨ha, hns⟩
    simp [unseenF, Finset.mem_filter, List.mem_cons] at hmem

theorem serElems_some (h : List GNode) (n : Nat)
    (hf : ∀ seen v, (unseenF h seen).card < n →
      ∃ r seen2, serVal h n seen v = some (r, seen2) ∧ seen ⊆ seen2) :
    ∀ (es : List GVal) (seen : List Nat), (unseenF h seen).card < n →
    ∃ js seen2, serElems (serVal h n) es seen = some (js, seen2) ∧
      seen ⊆ seen2 := by
  intro es
  induction es with
  | nil => intro seen _; exact ⟨[], seen, rfl, List.Subset.refl seen⟩
  | cons e es ihe =>
    intro seen hc
    obtain ⟨r, s1, he, hs1⟩ := hf seen e hc
    have hc1 : (unseenF h s1).card < n := lt_of_le_of_lt (unseen_mono h hs1) hc
    obtain ⟨js, s2, he2, hs2⟩ := ihe s1 hc1
    exact ⟨r.getD J.null :: js, s2, by simp [serElems, he, he2], hs1.trans hs2⟩

theorem serFields_some (h : List GNode) (n : Nat)
    (hf : ∀ seen v, (unseenF h seen).card < n →
      ∃ r seen2, serVal h n seen v = some (r, seen2) ∧ seen ⊆ seen2) :
    ∀ (fs : List (String × GVal)) (seen : List Nat), (unseenF h seen).card < n →
    ∃ jfs seen2, serFields (serVal h n) fs seen = some (jfs, seen2) ∧
      seen ⊆ seen2 := by
  intro fs
  induction fs with
  | nil => intro seen _; exact ⟨[], seen, rfl, List.Subset.refl seen⟩
  | cons kv fs ihf2 =>
    obtain ⟨k, v⟩ := kv
    intro seen hc
    obtain ⟨r, s1, he, hs1⟩ := hf seen v hc
    have hc1 : (unseenF h s1).card < n := lt_of_le_of_lt (unseen_mono h hs1) hc
    obtain ⟨jfs, s2, he2, hs2⟩ := ihf2 s1 hc1
    cases r with
    | none => exact ⟨jfs, s2, by simp [serFields, he, he2], hs1.trans hs2⟩
    | some j => exact ⟨(k, j) :: jfs, s2, by simp [serFields, he, he2], hs1.trans hs2⟩

theorem serVal_some : ∀ (fuel : Nat) (h : List GNode) (seen : List Nat) (v : GVal),
    (unseenF h seen).card < fuel →
    ∃ r seen2, serVal h fuel seen v = some (r, seen2) ∧ seen ⊆ seen2 := by
  intro fuel
  induction fuel with
  | zero => intro h seen v hc; exact absurd hc (Nat.not_lt_zero _)
  | succ n ihf =>
    intro h seen v hc
    cases v with
    | null => exact ⟨some J.null, seen, rfl, List.Subset.refl seen⟩
    | bool b => exact ⟨some (J.bool b), seen, rfl, List.Subset.refl seen⟩
    | num m => exact ⟨some (J.num m), seen, rfl, List.Subset.refl seen⟩
    | str s => exact ⟨some (J.str s), seen, rfl, List.Subset.refl seen⟩
    | ref a =>
      rcases hh : h[a]? with _ | node
      · exact ⟨none, seen, by simp [serVal, hh], List.Subset.refl seen⟩
      · have halen : a < h.length := by
          rcases List.getElem?_eq_some.mp hh with ⟨hlt, _⟩
          exact hlt
        cases node with
        | date t =>
          exact ⟨some (J.str (isoString t)), seen, by simp [serVal, hh],
            List.Subset.refl seen⟩
        | strset xs =>
          by_cases hseen : a ∈ seen
          · exact ⟨none, seen, by simp [serVal, hh, hseen], List.Subset.refl seen⟩
          · exact ⟨some (J.arr (xs.map J.str)), a :: seen, by simp [serVal, hh, hseen],
              List.subset_cons_of_subset a (List.Subset.refl seen)⟩
        | arr es =>
          by_cases hseen : a ∈ seen
          · exact ⟨none, seen, by simp [serVal, hh, hseen], List.Subset.refl seen⟩
          · have hc2 : (unseenF h (a :: seen)).card < n := by
              have := unseen_insert_lt h halen hseen
              omega
            obtain ⟨js, s2, he2, hs2⟩ :=
              serElems_some h n (fun s v hcv => ihf h s v hcv) es (a :: seen) hc2
            exact ⟨some (J.arr js), s2, by simp [serVal, hh, hseen, he2],
              fun _ hx => hs2 (List.mem_cons_of_mem a hx)⟩
        | obj fs =>
          by_cases hseen : a ∈ seen
          · exact ⟨none, seen, by simp [serVal, hh, hseen], List.Subset.refl seen⟩
          · have hc2 : (unseenF h (a :: seen)).card < n := by
              have := unseen_insert_lt h halen hseen
              omega
            obtain ⟨jfs, s2, he2, hs2⟩ :=
              serFields_some h n (fun s v hcv => ihf h s v hcv) fs (a :: seen) hc2
            exact ⟨some (J.obj jfs), s2, by simp [serVal, hh, hseen, he2],
              fun _ hx => hs2 (List.mem_cons_of_mem a hx)⟩
        | exotic tag =>
          by_cases hseen : a ∈ seen
          · exact ⟨none, seen, by simp [serVal, hh, hseen], List.Subset.refl seen⟩
          · exact ⟨none, a :: seen, by simp [serVal, hh, hseen],
              List.subset_cons_of_subset a (List.Subset.refl seen)⟩

theorem unseen_nil (h : List GNode) : (unseenF h []).card = h.length := by
  simp [unseenF]

theorem stringify_total (h : List GNode) (v : GVal) :
    ∃ r, stringifyG h v = some r := by
  obtain ⟨r, s2, he, _⟩ := serVal_some (h.length + 1) h [] v (by rw [unseen_nil]; omega)
  exact ⟨r, by simp [stringifyG, he]⟩


theorem revSeen_mem : ∀ i a, a ∈ revSeen i ↔ a < i := by
  intro i
  induction i with
  | zero => intro a; simp [revSeen]
  | succ i ih =>
    intro a
    simp only [revSeen, List.mem_cons, ih]
    omega

theorem cycleHeap_get (m i : Nat) (hi : i < m) :
    (cycleHeap m)[i]? = some (GNode.obj [("next", GVal.ref ((i + 1) % m))]) := by
  simp [cycleHeap, List.getElem?_map, List.getElem?_range, hi]

theorem cycle_descend (m : Nat) (hm : 0 < m) :
    ∀ r i f, i + r = m → 1 ≤ r → r < f →
    serVal (cycleHeap m) f (revSeen i) (GVal.ref i) =
      some (some (nestedNext (r - 1)), revSeen m) := by
  intro r
  induction r with
  | zero => intro i f _ h2 _; omega
  | succ r ihr =>
    intro i f hi _ hf
    obtain ⟨f1, rfl⟩ : ∃ f1, f = f1 + 1 := ⟨f - 1, by omega⟩
    have hilt : i < m := by omega
    have hnotmem : i ∉ revSeen i := by simp [revSeen_mem]
    cases r with
    | zero =>
      have hEq : i + 1 = m := by omega
      have hseenEq : i :: revSeen i = revSeen m := by rw [← hEq]; rfl
      obtain ⟨f2, rfl⟩ : ∃ f2, f1 = f2 + 1 := ⟨f1 - 1, by omega⟩
      have h0 : (i + 1) % m = 0 := by rw [hEq]; exact Nat.mod_self m
      have h0mem : (0 : Nat) ∈ revSeen m := (revSeen_mem m 0).mpr hm
      simp [serVal, serFields, cycleHeap_get m i hilt, cycleHeap_get m 0 hm,
        hnotmem, h0, hseenEq, h0mem, nestedNext]
    | succ r1 =>
      have hlt : i + 1 < m := by omega
      have hmod : (i + 1) % m = i + 1 := Nat.mod_eq_of_lt hlt
      have hrec' := ihr (i + 1) f1 (by omega) (by omega) (by omega)
      have hrec : serVal (cycleHeap m) f1 (i :: revSeen i) (GVal.ref (i + 1)) =
          some (some (nestedNext r1), revSeen m) := hrec'
      simp [serVal, serFields, cycleHeap_get m i hilt, hnotmem, hmod, hrec, nestedNext]

theorem cycle_encode (n : Nat) :
    stringifyG (cycleHeap (n + 1)) (GVal.ref 0) = some (some (nestedNext n)) := by
  have hlen : (cycleHeap (n + 1)).length = n + 1 := by simp [cycleHeap]
  have hd := cycle_descend (n + 1) (by omega) (n + 1) 0 (n + 2) (by omega) (by omega)
    (by omega)
  have hd0 : serVal (cycleHeap (n + 1)) (n + 2) [] (GVal.ref 0) =
      some (some (nestedNext n), revSeen (n + 1)) := by
    have : revSeen 0 = ([] : List Nat) := rfl
    rw [← this]
    simpa using hd
  simp [stringifyG, hlen, hd0]


theorem alloc_len_aux : ∀ N (x : DVal), sizeOf x ≤ N → ∀ b,
    (allocVal x b).1.length = csize x := by
  intro N
  induction N using Nat.strong_induction_on with
  | _ N ih =>
    intro x hx b
    cases x with
    | null => rfl
    | bool b2 => rfl
    | num n => rfl
    | str s => rfl
    | date t => rfl
    | strset xs => rfl
    | arr xs =>
      have hmem : ∀ y ∈ xs, sizeOf y < N := by
        intro y hy
        have h1 : sizeOf y < sizeOf xs := List.sizeOf_lt_of_mem hy
        have h2 : sizeOf (DVal.arr xs) = 1 + sizeOf xs := by simp
        omega
      have helems : ∀ (ys : List DVal), (∀ y ∈ ys, sizeOf y < N) → ∀ b2,
          (allocElems ys b2).1.length = csizeElems ys := by
        intro ys
        induction ys with
        | nil => intro _ b2; rfl
        | cons y ys ihy =>
          intro hsz b2
          have hy := ih (sizeOf y) (hsz y (List.mem_cons_self y ys)) y le_rfl b2
          simp [allocElems, csizeElems, List.length_append, hy,
            ihy (fun z hz => hsz z (List.mem_cons_of_mem y hz))]
      simp [allocVal, csize, List.length_append, helems xs hmem b]
      omega
    | obj fs =>
      have hmem : ∀ kv ∈ fs, sizeOf kv.2 < N := by
        intro kv hkv
        have h1 : sizeOf kv < sizeOf fs := List.sizeOf_lt_of_mem hkv
        have h2 : sizeOf (DVal.obj fs) = 1 + sizeOf fs := by simp
        obtain ⟨k1, v⟩ := kv
        have h3 : sizeOf (k1, v) = 1 + sizeOf k1 + sizeOf v := by simp
        simp only at h1 ⊢
        omega
      have hfields : ∀ (gs : List (String × DVal)), (∀ kv ∈ gs, sizeOf kv.2 < N) → ∀ b2,
          (allocFields gs b2).1.length = csizeFields gs := by
        intro gs
        induction gs with
        | nil => intro _ b2; rfl
        | cons kv gs ihg =>
          obtain ⟨k1, v⟩ := kv
          intro hsz b2
          have hv := ih (sizeOf v) (hsz (k1, v) (List.mem_cons_self _ gs)) v le_rfl b2
          simp [allocFields, csizeFields, List.length_append, hv,
            ihg (fun z hz => hsz z (List.mem_cons_of_mem _ hz))]
      simp [allocVal, csize, List.length_append, hfields fs hmem b]
      omega

theorem allocVal_len (x : DVal) (b : Nat) : (allocVal x b).1.length = csize x :=
  alloc_len_aux (sizeOf x) x le_rfl b

theorem allocElems_len (ys : List DVal) : ∀ b, (allocElems ys b).1.length = csizeElems ys := by
  induction ys with
  | nil => intro b; rfl
  | cons y ys ihy =>
    intro b
    simp [allocElems, csizeElems, List.length_append, allocVal_len, ihy]

theorem allocFields_len (gs : List (String × DVal)) : ∀ b,
    (allocFields gs b).1.length = csizeFields gs := by
  induction gs with
  | nil => intro b; rfl
  | cons kv gs ihg =>
    obtain ⟨k1, v⟩ := kv
    intro b
    simp [allocFields, csizeFields, List.length_append, allocVal_len, ihg]

theorem segAt_append {h : List GNode} {b : Nat} {ns1 ns2 : List GNode}
    (hseg : segAt h b (ns1 ++ ns2)) : segAt h b ns1 ∧ segAt h (b + ns1.length) ns2 := by
  constructor
  · intro i hi
    have hx := hseg i (by simp [List.length_append]; omega)
    rwa [List.getElem_append_left hi] at hx
  · intro i hi
    have hb2 : ns1.length + i < (ns1 ++ ns2).length := by
      simp [List.length_append]
      omega
    have hx := hseg (ns1.length + i) hb2
    rw [List.getElem_append_right (by omega)] at hx
    simp only [Nat.add_sub_cancel_left] at hx
    rwa [show b + (ns1.length + i) = b + ns1.length + i by omega] at hx

theorem segAt_single {h : List GNode} {b : Nat} {node : GNode}
    (hseg : segAt h b [node]) : h[b]? = some node := by
  have := hseg 0 (by simp)
  simpa using this


theorem csizeElems_mem_le {y : DVal} : ∀ {ys : List DVal}, y ∈ ys → csize y ≤ csizeElems ys := by
  intro ys
  induction ys with
  | nil => intro hy; cases hy
  | cons z zs ihz =>
    intro hy
    rcases List.mem_cons.mp hy with rfl | hmem
    · simp [csizeElems]
    · have := ihz hmem
      simp [csizeElems]
      omega

theorem csizeFields_mem_le {kv : String × DVal} : ∀ {gs : List (String × DVal)},
    kv ∈ gs → csize kv.2 ≤ csizeFields gs := by
  intro gs
  induction gs with
  | nil => intro hy; cases hy
  | cons z zs ihz =>
    intro hy
    obtain ⟨k1, v1⟩ := z
    rcases List.mem_cons.mp hy with rfl | hmem
    · simp [csizeFields]
    · have := ihz hmem
      simp [csizeFields]
      omega

theorem ser_alloc_aux : ∀ N (x : DVal), sizeOf x ≤ N →
    ∀ (h : List GNode) (b : Nat) (seen : List Nat) (fuel : Nat),
    segAt h b (allocVal x b).1 →
    (∀ a, b ≤ a → a < b + csize x → a ∉ seen) →
    csize x < fuel →
    ∃ seen2, serVal h fuel seen (allocVal x b).2 = some (some (encodeTree x), seen2) ∧
      seen ⊆ seen2 ∧ ∀ a ∈ seen2, a ∈ seen ∨ (b ≤ a ∧ a < b + csize x) := by
  intro N
  induction N using Nat.strong_induction_on with
  | _ N ih =>
    intro x hx h b seen fuel hseg hdisj hfuel
    cases x with
    | null => exact ⟨seen, by cases fuel <;> rfl, List.Subset.refl seen, fun a ha => Or.inl ha⟩
    | bool b2 => exact ⟨seen, by cases fuel <;> rfl, List.Subset.refl seen, fun a ha => Or.inl ha⟩
    | num n => exact ⟨seen, by cases fuel <;> rfl, List.Subset.refl seen, fun a ha => Or.inl ha⟩
    | str s => exact ⟨seen, by cases fuel <;> rfl, List.Subset.refl seen, fun a ha => Or.inl ha⟩
    | date t =>
      obtain ⟨f1, rfl⟩ : ∃ f1, fuel = f1 + 1 := ⟨fuel - 1, by simp [csize] at hfuel; omega⟩
      have hb : h[b]? = some (GNode.date t) := segAt_single hseg
      exact ⟨seen, by simp [serVal, allocVal, hb, encodeTree], List.Subset.refl seen,
        fun a ha => Or.inl ha⟩
    | strset xs =>
      obtain ⟨f1, rfl⟩ : ∃ f1, fuel = f1 + 1 := ⟨fuel - 1, by simp [csize] at hfuel; omega⟩
      have hb : h[b]? = some (GNode.strset xs) := segAt_single hseg
      have hbn : b ∉ seen := hdisj b le_rfl (by simp [csize])
      refine ⟨b :: seen, by simp [serVal, allocVal, hb, hbn, encodeTree],
        List.subset_cons_of_subset b (List.Subset.refl seen), ?_⟩
      intro a ha
      rcases List.mem_cons.mp ha with rfl | hmem
      · exact Or.inr ⟨le_rfl, by simp [csize]⟩
      · exact Or.inl hmem
    | arr xs =>
      have hmem : ∀ y ∈ xs, sizeOf y < N := by
        intro y hy
        have h1 : sizeOf y < sizeOf xs := List.sizeOf_lt_of_mem hy
        have h2 : sizeOf (DVal.arr xs) = 1 + sizeOf xs := by simp
        omega
      have hcs : csize (DVal.arr xs) = 1 + csizeElems xs := rfl
      obtain ⟨f1, rfl⟩ : ∃ f1, fuel = f1 + 1 := ⟨fuel - 1, by omega⟩
      have hns := allocElems_len xs b
      have hseg2 : segAt h b ((allocElems xs b).1 ++ [GNode.arr (allocElems xs b).2]) := by
        simpa [allocVal] using hseg
      obtain ⟨hsegE, hsegN⟩ := segAt_append hseg2
      have hnode : h[b + csizeElems xs]? = some (GNode.arr (allocElems xs b).2) := by
        have := segAt_single hsegN
        rwa [hns] at this
      have hA : b + csizeElems xs ∉ seen := hdisj _ (by omega) (by rw [hcs]; omega)
      have haux : ∀ (ys : List DVal), (∀ y ∈ ys, sizeOf y < N) →
          ∀ (b2 : Nat) (seen2 : List Nat) (f2 : Nat),
          segAt h b2 (allocElems ys b2).1 →
          (∀ a, b2 ≤ a → a < b2 + csizeElems ys → a ∉ seen2) →
          (∀ y ∈ ys, csize y < f2) →
          ∃ seen3, serElems (serVal h f2) (allocElems ys b2).2 seen2 =
              some (encElems ys, seen3) ∧ seen2 ⊆ seen3 ∧
              ∀ a ∈ seen3, a ∈ seen2 ∨ (b2 ≤ a ∧ a < b2 + csizeElems ys) := by
        intro ys
        induction ys with
        | nil =>
          intro _ b2 seen2 f2 _ _ _
          exact ⟨seen2, by simp [allocElems, serElems, encElems],
            List.Subset.refl seen2, fun a ha => Or.inl ha⟩
        | cons y ys ihy =>
          intro hsz b2 seen2 f2 hsegC hdisjC hfC
          have hply := allocVal_len y b2
          have hsegC2 : segAt h b2 ((allocVal y b2).1 ++
              (allocElems ys (b2 + (allocVal y b2).1.length)).1) := by
            simpa [allocElems] using hsegC
          obtain ⟨hsegy, hsegq0⟩ := segAt_append hsegC2
          rw [hply] at hsegq0
          have hcse : csizeElems (y :: ys) = csize y + csizeElems ys := rfl
          obtain ⟨s1, he1, hsub1, hbd1⟩ :=
            ih (sizeOf y) (hsz y (List.mem_cons_self y ys)) y le_rfl h b2 seen2 f2 hsegy
              (fun a h1 h2 => hdisjC a h1 (by omega))
              (hfC y (List.mem_cons_self y ys))
          obtain ⟨s2, he2, hsub2, hbd2⟩ :=
            ihy (fun z hz => hsz z (List.mem_cons_of_mem y hz))
              (b2 + csize y) s1 f2 hsegq0
              (by
                intro a h1 h2 hc
                rcases hbd1 a hc with h3 | h4
                · exact hdisjC a (by omega) (by omega) h3
                · omega)
              (fun z hz => hfC z (List.mem_cons_of_mem y hz))
          refine ⟨s2, ?_, hsub1.trans hsub2, ?_⟩
          · have hq : (allocElems (y :: ys) b2).2 =
                (allocVal y b2).2 :: (allocElems ys (b2 + csize y)).2 := by
              simp [allocElems, hply]
            rw [hq]
            simp [serElems, he1, he2, encElems]
          · intro a ha
            rcases hbd2 a ha with h1 | h2
            · rcases hbd1 a h1 with h3 | h4
              · exact Or.inl h3
              · exact Or.inr ⟨h4.1, by omega⟩
            · exact Or.inr ⟨by omega, by omega⟩
      obtain ⟨s2, he2, hsub2, hbd2⟩ :=
        haux xs hmem b ((b + csizeElems xs) :: seen) f1 hsegE
          (by
            intro a h1 h2 hc
            rcases List.mem_cons.mp hc with rfl | hmem2
            · omega
            · exact hdisj a h1 (by omega) hmem2)
          (by
            intro y hy
            have := csizeElems_mem_le hy
            omega)
      have hval : (allocVal (DVal.arr xs) b).2 = GVal.ref (b + csizeElems xs) := by
        simp [allocVal, hns]
      refine ⟨s2, ?_, fun a ha => hsub2 (List.mem_cons_of_mem _ ha), ?_⟩
      · rw [hval]
        simp [serVal, hnode, hA, he2, encodeTree]
      · intro a ha
        rcases hbd2 a ha with h1 | h2
        · rcases List.mem_cons.mp h1 with rfl | hmem2
          · exact Or.inr ⟨by omega, by omega⟩
          · exact Or.inl hmem2
        · exact Or.inr ⟨by omega, by omega⟩
    | obj fs =>
      have hmem : ∀ kv ∈ fs, sizeOf kv.2 < N := by
        intro kv hkv
        have h1 : sizeOf kv < sizeOf fs := List.sizeOf_lt_of_mem hkv
        have h2 : sizeOf (DVal.obj fs) = 1 + sizeOf fs := by simp
        obtain ⟨k1, v⟩ := kv
        have h3 : sizeOf (k1, v) = 1 + sizeOf k1 + sizeOf v := by simp
        simp only at h1 ⊢
        omega
      have hcs : csize (DVal.obj fs) = 1 + csizeFields fs := rfl
      obtain ⟨f1, rfl⟩ : ∃ f1, fuel = f1 + 1 := ⟨fuel - 1, by omega⟩
      have hns := allocFields_len fs b
      have hseg2 : segAt h b ((allocFields fs b).1 ++ [GNode.obj (allocFields fs b).2]) := by
        simpa [allocVal] using hseg
      obtain ⟨hsegE, hsegN⟩ := segAt_append hseg2
      have hnode : h[b + csizeFields fs]? = some (GNode.obj (allocFields fs b).2) := by
        have := segAt_single hsegN
        rwa [hns] at this
      have hA : b + csizeFields fs ∉ seen := hdisj _ (by omega) (by rw [hcs]; omega)
      have haux : ∀ (gs : List (String × DVal)), (∀ kv ∈ gs, sizeOf kv.2 < N) →
          ∀ (b2 : Nat) (seen2 : List Nat) (f2 : Nat),
          segAt h b2 (allocFields gs b2).1 →
          (∀ a, b2 ≤ a → a < b2 + csizeFields gs → a ∉ seen2) →
          (∀ kv ∈ gs, csize kv.2 < f2) →
          ∃ seen3, serFields (serVal h f2) (allocFields gs b2).2 seen2 =
              some (encFields gs, seen3) ∧ seen2 ⊆ seen3 ∧
              ∀ a ∈ seen3, a ∈ seen2 ∨ (b2 ≤ a ∧ a < b2 + csizeFields gs) := by
        intro gs
        induction gs with
        | nil =>
          intro _ b2 seen2 f2 _ _ _
          exact ⟨seen2, by simp [allocFields, serFields, encFields],
            List.Subset.refl seen2, fun a ha => Or.inl ha⟩
        | cons kv gs ihg =>
          obtain ⟨k1, v⟩ := kv
          intro hsz b2 seen2 f2 hsegC hdisjC hfC
          have hply := allocVal_len v b2
          have hsegC2 : segAt h b2 ((allocVal v b2).1 ++
              (allocFields gs (b2 + (allocVal v b2).1.length)).1) := by
            simpa [allocFields] using hsegC
          obtain ⟨hsegy, hsegq0⟩ := segAt_append hsegC2
          rw [hply] at hsegq0
          have hcse : csizeFields ((k1, v) :: gs) = csize v + csizeFields gs := rfl
          obtain ⟨s1, he1, hsub1, hbd1⟩ :=
            ih (sizeOf v) (hsz (k1, v) (List.mem_cons_self _ gs)) v le_rfl h b2 seen2 f2 hsegy
              (fun a h1 h2 => hdisjC a h1 (by omega))
              (hfC (k1, v) (List.mem_cons_self _ gs))
          obtain ⟨s2, he2, hsub2, hbd2⟩ :=
            ihg (fun z hz => hsz z (List.mem_cons_of_mem _ hz))
              (b2 + csize v) s1 f2 hsegq0
              (by
                intro a h1 h2 hc
                rcases hbd1 a hc with h3 | h4
                · exact hdisjC a (by omega) (by omega) h3
                · omega)
              (fun z hz => hfC z (List.mem_cons_of_mem _ hz))
          refine ⟨s2, ?_, hsub1.trans hsub2, ?_⟩
          · have hq : (allocFields ((k1, v) :: gs) b2).2 =
                (k1, (allocVal v b2).2) :: (allocFields gs (b2 + csize v)).2 := by
              simp [allocFields, hply]
            rw [hq]
            simp [serFields, he1, he2, encFields]
          · intro a ha
            rcases hbd2 a ha with h1 | h2
            · rcases hbd1 a h1 with h3 | h4
              · exact Or.inl h3
              · exact Or.inr ⟨h4.1, by omega⟩
            · exact Or.inr ⟨by omega, by omega⟩
      obtain ⟨s2, he2, hsub2, hbd2⟩ :=
        haux fs hmem b ((b + csizeFields fs) :: seen) f1 hsegE
          (by
            intro a h1 h2 hc
            rcases List.mem_cons.mp hc with rfl | hmem2
            · omega
            · exact hdisj a h1 (by omega) hmem2)
          (by
            intro kv hkv
            have := csizeFields_mem_le hkv
            omega)
      have hval : (allocVal (DVal.obj fs) b).2 = GVal.ref (b + csizeFields fs) := by
        simp [allocVal, hns]
      refine ⟨s2, ?_, fun a ha => hsub2 (List.mem_cons_of_mem _ ha), ?_⟩
      · rw [hval]
        simp [serVal, hnode, hA, he2, encodeTree]
      · intro a ha
        rcases hbd2 a ha with h1 | h2
        · rcases List.mem_cons.mp h1 with rfl | hmem2
          · exact Or.inr ⟨by omega, by omega⟩
          · exact Or.inl hmem2
        · exact Or.inr ⟨by omega, by omega⟩

theorem encodeDoc_eq (x : DVal) : encodeDoc x = some (encodeTree x) := by
  have hseg : segAt (heapOf x) 0 (allocVal x 0).1 := by
    intro i hi
    simp [heapOf, List.getElem?_eq_getElem hi]
  have hlen : (heapOf x).length = csize x := by
    simp [heapOf, allocVal_len]
  obtain ⟨s2, he, _, _⟩ :=
    ser_alloc_aux (sizeOf x) x le_rfl (heapOf x) 0 [] ((heapOf x).length + 1) hseg
      (fun a _ _ hc => (List.not_mem_nil a) hc)
      (by omega)
  simp [encodeDoc, rootOf, he]


theorem okVal_guestDefault (uid : String) (now : DateTime) (hwf : wfDT now = true) :
    okVal "" (guestDefault uid now) = true := by
  simp [guestDefault, okVal, okFields, okElems, isDateKey, reactionsKey, nodupB, hwf]

theorem lsGet_remove (s : LocalStore) (key : String) :
    lsGet (lsRemove s key) key = none := by
  induction s with
  | nil => rfl
  | cons kv rest ih =>
    obtain ⟨k, v⟩ := kv
    by_cases hk : k = key
    · simp [lsRemove, hk, ih]
    · simp [lsRemove, lsGet, hk, ih]

theorem lsGet_set (s : LocalStore) (key : String) (v : Option J) :
    lsGet (lsSet s key v) key = some v := by
  simp [lsSet, lsGet]

theorem prim_serVal (h : List GNode) (fuel : Nat) (seen : List Nat) (v : GVal)
    (hp : isPrimG v = true) : serVal h fuel seen v = some (some (primJ v), seen) := by
  cases v with
  | null => cases fuel <;> rfl
  | bool b => cases fuel <;> rfl
  | num n => cases fuel <;> rfl
  | str s => cases fuel <;> rfl
  | ref a => simp [isPrimG] at hp

theorem prim_serFields (h : List GNode) (fuel : Nat) :
    ∀ (fs : List (String × GVal)) (seen : List Nat), (∀ kv ∈ fs, isPrimG kv.2 = true) →
    serFields (serVal h fuel) fs seen =
      some (fs.map (fun kv => (kv.1, primJ kv.2)), seen) := by
  intro fs
  induction fs with
  | nil => intro seen _; rfl
  | cons kv fs ihf =>
    obtain ⟨k, v⟩ := kv
    intro seen hp
    have hv := hp (k, v) (List.mem_cons_self _ fs)
    simp [serFields, prim_serVal h fuel seen v hv,
      ihf seen (fun z hz => hp z (List.mem_cons_of_mem _ hz))]

theorem serFields_append_some {f : List Nat → GVal → Option (Option J × List Nat)}
    {l2 : List (String × GVal)} :
    ∀ {l1 : List (String × GVal)} {seen : List Nat} {js : List (String × J)}
      {s1 : List Nat} {js2 : List (String × J)} {s2 : List Nat},
    serFields f l1 seen = some (js, s1) → serFields f l2 s1 = some (js2, s2) →
    serFields f (l1 ++ l2) seen = some (js ++ js2, s2) := by
  intro l1
  induction l1 with
  | nil =>
    intro seen js s1 js2 s2 h1 h2
    simp only [serFields, Option.some.injEq, Prod.mk.injEq] at h1
    obtain ⟨hjs, hs⟩ := h1
    subst hjs
    subst hs
    simpa using h2
  | cons kv l1 ih1 =>
    obtain ⟨k1, v1⟩ := kv
    intro seen js s1 js2 s2 h1 h2
    rcases hf : f seen v1 with _ | ⟨oj, sm⟩
    · simp only [serFields, hf] at h1
      cases h1
    · cases oj with
      | none =>
        simp only [serFields, hf] at h1
        have hstep := ih1 h1 h2
        simp only [List.cons_append, serFields, hf]
        exact hstep
      | some j =>
        rcases hrest : serFields f l1 sm with _ | ⟨jfs, s3⟩
        · simp only [serFields, hf, hrest] at h1
          cases h1
        · simp only [serFields, hf, hrest, Option.some.injEq, Prod.mk.injEq] at h1
          obtain ⟨hjs, hs⟩ := h1
          subst hs
          have hstep := ih1 hrest h2
          simp only [List.cons_append, serFields, hf, List.append_eq, hstep]
          rw [← hjs, List.cons_append]


theorem serVal_obj {h : List GNode} {fuel : Nat} {seen : List Nat} {a : Nat}
    {fields : List (String × GVal)} {jfs : List (String × J)} {s2 : List Nat}
    (ha : h[a]? = some (GNode.obj fields)) (hseen : a ∉ seen)
    (hf : serFields (serVal h fuel) fields (a :: seen) = some (jfs, s2)) :
    serVal h (fuel + 1) seen (GVal.ref a) = some (some (J.obj jfs), s2) := by
  simp [serVal, ha, hseen, hf]

theorem serVal_exotic {h : List GNode} {fuel : Nat} {seen : List Nat} {a : Nat}
    {tag : String} (ha : h[a]? = some (GNode.exotic tag)) (hseen : a ∉ seen) :
    serVal h (fuel + 1) seen (GVal.ref a) = some (none, a :: seen) := by
  simp [serVal, ha, hseen]

/-- C1: for every Profile value containing only recognized shapes in recognized
positions (`okVal`), decoding the encoded snapshot yields the value back:
`decode (encode x) = x`.  `encodeDoc` is `JSON.stringify(x, jsonReplacer())`
run over the allocation of `x` (App.tsx lines 13-52, 113); `decodeDoc` is
`JSON.parse`'s internalization with the reviver (lines 75-87).  Equality of
`DVal`s compares point-in-time values by instant and the set field by its
member list, which refines the claim's field-wise comparison. -/
theorem C1_roundtrip (x : DVal) (hok : okVal "" x = true) :
    (encodeDoc x).map decodeDoc = some x := by
  rw [encodeDoc_eq]
  simp [decodeDoc, intern_encodeTree x "" hok]

/-- Witness for C1 at a concrete profile-shaped value containing a date, the
set field and a counter. -/
theorem C1_roundtrip_witness :
    okVal "" (DVal.obj [("createdAt", DVal.date t0),
      ("communityPostFireReactions", DVal.strset ["a"]), ("n", DVal.num 3)]) = true ∧
    (encodeDoc (DVal.obj [("createdAt", DVal.date t0),
      ("communityPostFireReactions", DVal.strset ["a"]), ("n", DVal.num 3)])).map decodeDoc =
      some (DVal.obj [("createdAt", DVal.date t0),
      ("communityPostFireReactions", DVal.strset ["a"]), ("n", DVal.num 3)]) :=
  ⟨rfl, C1_roundtrip _ rfl⟩

/-- C2 is false as stated: for an existing remote record supplying no fields,
the projection's `displayName` is absent rather than defaulted — `profileData`
(App.tsx line 145) copies `data.displayName` verbatim with no fallback, so
displayName is not "always present in the projection". -/
theorem C2_counterexample :
    (projectProfile "u1" t0 emptyRecord).displayName = none ∧
    ∀ s : String, (projectProfile "u1" t0 emptyRecord).displayName ≠ some s :=
  ⟨rfl, fun _ h => Option.noConfusion h⟩

/-- C2 amended: the projection takes every field verbatim when present and
substitutes defaults only for `createdAt` (current time), `startDate`
(absent), `isAdmin`/`isMuted` (false), `role` (absent), `commitmentDocument`
(empty string), `blockedUsers` (empty list) and the three counters (0);
`displayName`, `email` and `photoURL` are copied verbatim even when absent,
so `displayName` is missing from the projection whenever the record lacks
it. -/
theorem C2_amended (uid : String) (now : DateTime) (data : RemoteData) :
    (projectProfile uid now data).uid = uid ∧
    (projectProfile uid now data).displayName = data.displayName ∧
    (projectProfile uid now data).email = data.email ∧
    (projectProfile uid now data).photoURL = data.photoURL ∧
    (projectProfile uid now data).createdAt = data.createdAt.getD now ∧
    (projectProfile uid now data).startDate = data.startDate ∧
    (projectProfile uid now data).isAdmin = data.isAdmin.getD false ∧
    (projectProfile uid now data).isMuted = data.isMuted.getD false ∧
    (projectProfile uid now data).role = data.role ∧
    (projectProfile uid now data).commitmentDocument = data.commitmentDocument.getD "" ∧
    (projectProfile uid now data).blockedUsers = data.blockedUsers.getD [] ∧
    (projectProfile uid now data).emergencyIndex = data.emergencyIndex.getD 0 ∧
    (projectProfile uid now data).urgeIndex = data.urgeIndex.getD 0 ∧
    (projectProfile uid now data).storyIndex = data.storyIndex.getD 0 :=
  ⟨rfl, rfl, rfl, rfl, rfl, rfl, rfl, rfl, rfl, rfl, rfl, rfl, rfl, rfl⟩

/-- C3: encode terminates and produces a JSON document on every input,
including every value with a self-reference: for any heap and root,
`stringifyG` succeeds within its fuel bound (so the replacer's visited-set
guard stops the recursion), and for a cycle of plain objects of any length
`n + 1 ≥ 1` the output is exactly the `n + 1` nested `next` objects with the
revisited back-reference treated as "omit this member", not as an error.  (In
an array position JSON array semantics would render such an omitted element
as `null`.) -/
theorem C3_circular_safety :
    (∀ (h : List GNode) (v : GVal), ∃ r, stringifyG h v = some r) ∧
    (∀ n : Nat, stringifyG (cycleHeap (n + 1)) (GVal.ref 0) = some (some (nestedNext n))) :=
  ⟨stringify_total, cycle_encode⟩

/-- C4: when the stored guest snapshot text is present but not syntactically
valid JSON (modelled `some none`), decode failure is recovered locally: the
bad snapshot is removed by the catch block, the freshly derived guest default
becomes the current profile, the store ends up holding that default's valid
encoding, and loading ends.  `guestStep` is a total function, so no error is
surfaced to the caller. -/
theorem C4_malformed_snapshot (uid : String) (now : DateTime) (st : AppState)
    (hbad : lsGet st.store "guestProfile" = some none) :
    (guestStep uid now st).userProfile = some (guestDefault uid now) ∧
    lsGet (guestStep uid now st).store "guestProfile" =
      some (encodeDoc (guestDefault uid now)) ∧
    encodeDoc (guestDefault uid now) = some (encodeTree (guestDefault uid now)) ∧
    (guestStep uid now st).loading = false := by
  refine ⟨?_, ?_, encodeDoc_eq _, ?_⟩ <;>
    simp [guestStep, hbad, optFalsy, lsGet_set]

/-- Witness for C4 on a store holding an unparseable snapshot. -/
theorem C4_malformed_snapshot_witness :
    (guestStep "g" t0 ⟨none, [("guestProfile", none)], true⟩).userProfile =
      some (guestDefault "g" t0) ∧
    lsGet (guestStep "g" t0 ⟨none, [("guestProfile", none)], true⟩).store "guestProfile" =
      some (encodeDoc (guestDefault "g" t0)) ∧
    encodeDoc (guestDefault "g" t0) = some (encodeTree (guestDefault "g" t0)) ∧
    (guestStep "g" t0 ⟨none, [("guestProfile", none)], true⟩).loading = false :=
  C4_malformed_snapshot "g" t0 ⟨none, [("guestProfile", none)], true⟩ rfl


/-- C5: when identity "abc12xyz" becomes active as a guest with no existing
snapshot, the held profile is the guest default with id "abc12xyz", a
displayName containing the first five characters of the id, all counters 0
and an empty reactions set — and the store then holds a snapshot that decodes
back to an equal profile. -/
theorem C5_guest_creation (now : DateTime) (st : AppState) (hwf : wfDT now = true)
    (hnone : lsGet st.store "guestProfile" = none) :
    (guestStep "abc12xyz" now st).userProfile = some (guestDefault "abc12xyz" now) ∧
    dvalField (guestDefault "abc12xyz" now) "uid" = some (DVal.str "abc12xyz") ∧
    dvalField (guestDefault "abc12xyz" now) "displayName" =
      some (DVal.str ("زائر " ++ String.take "abc12xyz" 5)) ∧
    (∃ s1 s2 : String, "زائر " ++ String.take "abc12xyz" 5 = s1 ++ "abc12" ++ s2) ∧
    dvalField (guestDefault "abc12xyz" now) "emergencyIndex" = some (DVal.num 0) ∧
    dvalField (guestDefault "abc12xyz" now) "urgeIndex" = some (DVal.num 0) ∧
    dvalField (guestDefault "abc12xyz" now) "storyIndex" = some (DVal.num 0) ∧
    dvalField (guestDefault "abc12xyz" now) "communityPostFireReactions" =
      some (DVal.strset []) ∧
    (∃ j, lsGet (guestStep "abc12xyz" now st).store "guestProfile" = some (some j) ∧
       decodeDoc j = guestDefault "abc12xyz" now) ∧
    (guestStep "abc12xyz" now st).loading = false := by
  refine ⟨?_, rfl, rfl, ⟨"زائر ", "", rfl⟩, rfl, rfl, rfl, rfl, ?_, ?_⟩
  · simp [guestStep, hnone, optFalsy]
  · refine ⟨encodeTree (guestDefault "abc12xyz" now), ?_, ?_⟩
    · simp [guestStep, hnone, optFalsy, lsGet_set, encodeDoc_eq]
    · exact intern_encodeTree _ "" (okVal_guestDefault "abc12xyz" now hwf)
  · simp [guestStep, hnone, optFalsy]

/-- Witness for C5 at a concrete creation instant and empty store. -/
theorem C5_guest_creation_witness :
    (guestStep "abc12xyz" t0 ⟨none, [], true⟩).userProfile =
      some (guestDefault "abc12xyz" t0) ∧
    dvalField (guestDefault "abc12xyz" t0) "uid" = some (DVal.str "abc12xyz") ∧
    dvalField (guestDefault "abc12xyz" t0) "displayName" =
      some (DVal.str ("زائر " ++ String.take "abc12xyz" 5)) ∧
    (∃ s1 s2 : String, "زائر " ++ String.take "abc12xyz" 5 = s1 ++ "abc12" ++ s2) ∧
    dvalField (guestDefault "abc12xyz" t0) "emergencyIndex" = some (DVal.num 0) ∧
    dvalField (guestDefault "abc12xyz" t0) "urgeIndex" = some (DVal.num 0) ∧
    dvalField (guestDefault "abc12xyz" t0) "storyIndex" = some (DVal.num 0) ∧
    dvalField (guestDefault "abc12xyz" t0) "communityPostFireReactions" =
      some (DVal.strset []) ∧
    (∃ j, lsGet (guestStep "abc12xyz" t0 ⟨none, [], true⟩).store "guestProfile" =
       some (some j) ∧ decodeDoc j = guestDefault "abc12xyz" t0) ∧
    (guestStep "abc12xyz" t0 ⟨none, [], true⟩).loading = false :=
  C5_guest_creation t0 ⟨none, [], true⟩ rfl rfl

/-- C6: for an existing remote record with no avatar field, the
immediately-returned projection's avatar equals the candidate at index
(numeric code of the id's first character) mod N, and both background writes
— to the identity provider (`updateProfile`) and to the remote record
(`updateDoc`) — target that same value; the writes are fire-and-forget and
`authExistingStep` is total, so their failures are only logged, never
surfaced. -/
theorem C6_avatar_backfill (uid : String) (now : DateTime) (avatars : List String)
    (data : RemoteData) (hphoto : data.photoURL = none) (hav : avatars ≠ []) :
    (authExistingStep uid now avatars data).profile.photoURL =
      some (pickAvatar uid avatars) ∧
    (authExistingStep uid now avatars data).authUpdate = some (pickAvatar uid avatars) ∧
    (authExistingStep uid now avatars data).docUpdate = some (pickAvatar uid avatars) ∧
    pickAvatar uid avatars = avatars.getD (pickAvatarIndex uid avatars.length) "" ∧
    pickAvatarIndex uid avatars.length < avatars.length := by
  have hf : falsyOptStr data.photoURL = true := by rw [hphoto]; rfl
  refine ⟨?_, ?_, ?_, rfl, Nat.mod_lt _ (List.length_pos.mpr hav)⟩ <;>
    simp [authExistingStep, hf, projectProfile]

/-- Witness for C6 on the empty record and a three-candidate list. -/
theorem C6_avatar_backfill_witness :
    (authExistingStep "abc12xyz" t0 ["p", "q", "r"] emptyRecord).profile.photoURL =
      some (pickAvatar "abc12xyz" ["p", "q", "r"]) ∧
    (authExistingStep "abc12xyz" t0 ["p", "q", "r"] emptyRecord).authUpdate =
      some (pickAvatar "abc12xyz" ["p", "q", "r"]) ∧
    (authExistingStep "abc12xyz" t0 ["p", "q", "r"] emptyRecord).docUpdate =
      some (pickAvatar "abc12xyz" ["p", "q", "r"]) ∧
    pickAvatar "abc12xyz" ["p", "q", "r"] =
      ["p", "q", "r"].getD (pickAvatarIndex "abc12xyz" (["p", "q", "r"] : List String).length) "" ∧
    pickAvatarIndex "abc12xyz" (["p", "q", "r"] : List String).length <
      (["p", "q", "r"] : List String).length :=
  C6_avatar_backfill "abc12xyz" t0 ["p", "q", "r"] emptyRecord rfl (by simp)


/-- C7: a value containing an object of unrecognized shape encodes with that
member omitted and all sibling members unchanged: an object holding an
exotic member among primitive siblings encodes to exactly the same document
as the object without that member, and the document lists each sibling
verbatim.  The encoder neither fails nor serializes the exotic object. -/
theorem C7_exotic_rejection (tag k : String) (pre post : List (String × GVal))
    (hpre : ∀ kv ∈ pre, isPrimG kv.2 = true) (hpost : ∀ kv ∈ post, isPrimG kv.2 = true) :
    stringifyG [GNode.obj (pre ++ (k, GVal.ref 1) :: post), GNode.exotic tag] (GVal.ref 0) =
      some (some (J.obj ((pre ++ post).map (fun kv => (kv.1, primJ kv.2))))) ∧
    stringifyG [GNode.obj (pre ++ post)] (GVal.ref 0) =
      some (some (J.obj ((pre ++ post).map (fun kv => (kv.1, primJ kv.2))))) := by
  constructor
  · have h0 : [GNode.obj (pre ++ (k, GVal.ref 1) :: post), GNode.exotic tag][0]? =
        some (GNode.obj (pre ++ (k, GVal.ref 1) :: post)) := rfl
    have h1 : [GNode.obj (pre ++ (k, GVal.ref 1) :: post), GNode.exotic tag][1]? =
        some (GNode.exotic tag) := rfl
    have hmid : ∀ fuel : Nat,
        serVal [GNode.obj (pre ++ (k, GVal.ref 1) :: post), GNode.exotic tag]
          (fuel + 1) [0] (GVal.ref 1) = some (none, [1, 0]) :=
      fun _ => serVal_exotic h1 (by simp)
    have hmidf : ∀ fuel : Nat,
        serFields (serVal [GNode.obj (pre ++ (k, GVal.ref 1) :: post), GNode.exotic tag]
            (fuel + 1)) ((k, GVal.ref 1) :: post) [0] =
          some (post.map (fun kv => (kv.1, primJ kv.2)), [1, 0]) := by
      intro fuel
      simp only [serFields, hmid fuel]
      exact prim_serFields _ (fuel + 1) post [1, 0] hpost
    have hall : ∀ fuel : Nat,
        serFields (serVal [GNode.obj (pre ++ (k, GVal.ref 1) :: post), GNode.exotic tag]
            (fuel + 1)) (pre ++ (k, GVal.ref 1) :: post) [0] =
          some (pre.map (fun kv => (kv.1, primJ kv.2)) ++
            post.map (fun kv => (kv.1, primJ kv.2)), [1, 0]) :=
      fun fuel => serFields_append_some
        (prim_serFields _ (fuel + 1) pre [0] hpre) (hmidf fuel)
    have hroot : serVal [GNode.obj (pre ++ (k, GVal.ref 1) :: post), GNode.exotic tag]
        (1 + 1 + 1) [] (GVal.ref 0) =
        some (some (J.obj (pre.map (fun kv => (kv.1, primJ kv.2)) ++
          post.map (fun kv => (kv.1, primJ kv.2)))), [1, 0]) :=
      serVal_obj h0 (by simp) (hall 1)
    simp only [stringifyG]
    rw [show ([GNode.obj (pre ++ (k, GVal.ref 1) :: post), GNode.exotic tag].length + 1)
        = 1 + 1 + 1 from rfl]
    rw [hroot]
    simp [List.map_append]
  · have h0 : [GNode.obj (pre ++ post)][0]? = some (GNode.obj (pre ++ post)) := rfl
    have hprall : ∀ kv ∈ pre ++ post, isPrimG kv.2 = true := by
      intro kv hkv
      rcases List.mem_append.mp hkv with hm | hm
      · exact hpre kv hm
      · exact hpost kv hm
    have hroot : serVal [GNode.obj (pre ++ post)] (1 + 1) [] (GVal.ref 0) =
        some (some (J.obj ((pre ++ post).map (fun kv => (kv.1, primJ kv.2)))), [0]) :=
      serVal_obj h0 (by simp) (prim_serFields _ 1 (pre ++ post) [0] hprall)
    simp only [stringifyG]
    rw [show (([GNode.obj (pre ++ post)] : List GNode).length + 1) = 1 + 1 from rfl]
    rw [hroot]
    rfl

/-- Witness for C7 with a Promise-tagged object between two primitive
fields. -/
theorem C7_exotic_rejection_witness :
    stringifyG [GNode.obj ([("x", GVal.num 1)] ++ ("bad", GVal.ref 1) ::
        [("y", GVal.str "s")]), GNode.exotic "[object Promise]"] (GVal.ref 0) =
      some (some (J.obj (([("x", GVal.num 1)] ++ [("y", GVal.str "s")]).map
        (fun kv => (kv.1, primJ kv.2))))) ∧
    stringifyG [GNode.obj ([("x", GVal.num 1)] ++ [("y", GVal.str "s")])] (GVal.ref 0) =
      some (some (J.obj (([("x", GVal.num 1)] ++ [("y", GVal.str "s")]).map
        (fun kv => (kv.1, primJ kv.2))))) :=
  C7_exotic_rejection "[object Promise]" "bad" [("x", GVal.num 1)] [("y", GVal.str "s")]
    (by intro kv hkv; simp at hkv; rw [hkv]; rfl)
    (by intro kv hkv; simp at hkv; rw [hkv]; rfl)

/-- C8: the deterministic avatar pick selects the candidate at index (numeric
code of the id's first character) mod N; for a nonempty candidate list the
index is always in `[0, N)` and the returned avatar is the candidate at that
index.  `pickAvatar` is a function of the id and the list alone, so the same
inputs yield the same avatar on every call. -/
theorem C8_avatar_pick (uid : String) (avatars : List String) (hav : avatars ≠ []) :
    pickAvatarIndex uid avatars.length < avatars.length ∧
    pickAvatar uid avatars = avatars.getD (pickAvatarIndex uid avatars.length) "" :=
  ⟨Nat.mod_lt _ (List.length_pos.mpr hav), rfl⟩

/-- Witness for C8 at a concrete id and candidate list. -/
theorem C8_avatar_pick_witness :
    pickAvatarIndex "abc12xyz" (["p", "q", "r"] : List String).length <
      (["p", "q", "r"] : List String).length ∧
    pickAvatar "abc12xyz" ["p", "q", "r"] =
      ["p", "q", "r"].getD (pickAvatarIndex "abc12xyz" (["p", "q", "r"] : List String).length) "" :=
  C8_avatar_pick "abc12xyz" ["p", "q", "r"] (by simp)

/-- C9: on the identity-loss event from any state, the held profile is
discarded — `currentProfile()` becomes none — and the guest snapshot under
the fixed key is purged, so a subsequent get of that key returns absent. -/
theorem C9_identity_loss (st : AppState) :
    (signedOutStep st).userProfile = none ∧
    lsGet (signedOutStep st).store "guestProfile" = none ∧
    (signedOutStep st).loading = false :=
  ⟨rfl, lsGet_remove st.store _, rfl⟩

/-- C10 is false as stated: encoding an object whose two members reference
the same `Date` keeps both occurrences.  ECMA-262 applies
`Date.prototype.toJSON` before the replacer, so a `Date` reaches
`jsonReplacer` already as a string, is never added to the visited `WeakSet`,
and its second occurrence is not omitted — the output is not the
one-member object the claim predicts. -/
theorem C10_counterexample :
    stringifyG sharedDateHeap (GVal.ref 1) =
      some (some (J.obj [("a", J.str (isoString t0)), ("b", J.str (isoString t0))])) ∧
    J.obj [("a", J.str (isoString t0)), ("b", J.str (isoString t0))] ≠
      J.obj [("a", J.str (isoString t0))] :=
  ⟨rfl, by simp⟩

/-- C10 amended: within one encode call the visited set is threaded and never
cleared, and every non-null object that actually reaches the replacer (sets,
arrays, plain objects, unrecognized objects) is checked against the set
before shape dispatch, so every occurrence after the first is omitted —
demonstrated for one `Set` referenced from two sibling members; point-in-time
values, however, are converted to strings by the built-in `toJSON` step
before the replacer runs, are never added to the set, and are therefore
encoded at every occurrence — demonstrated for one shared `Date`. -/
theorem C10_amended :
    (∀ (h : List GNode) (fuel : Nat) (seen : List Nat) (a : Nat) (node : GNode),
       h[a]? = some node → (∀ t, node ≠ GNode.date t) → a ∈ seen →
       serVal h (fuel + 1) seen (GVal.ref a) = some (none, seen)) ∧
    (∀ (h : List GNode) (fuel : Nat) (seen : List Nat) (a : Nat) (t : DateTime),
       h[a]? = some (GNode.date t) →
       serVal h (fuel + 1) seen (GVal.ref a) = some (some (J.str (isoString t)), seen)) ∧
    stringifyG sharedSetHeap (GVal.ref 1) = some (some (J.obj [("a", J.arr [J.str "x"])])) ∧
    stringifyG sharedDateHeap (GVal.ref 1) =
      some (some (J.obj [("a", J.str (isoString t0)), ("b", J.str (isoString t0))])) := by
  refine ⟨?_, ?_, rfl, rfl⟩
  · intro h fuel seen a node hh hnd hseen
    cases node with
    | date t => exact absurd rfl (hnd t)
    | strset xs => simp [serVal, hh, hseen]
    | arr es => simp [serVal, hh, hseen]
    | obj fs => simp [serVal, hh, hseen]
    | exotic tag => simp [serVal, hh, hseen]
  · intro h fuel seen a t hh
    simp [serVal, hh]

/-- Witness for the hypothesis-bearing conjuncts of the amended C10: a
revisited `Set` node is omitted while a `Date` node is encoded even when its
address is already in the visited set. -/
theorem C10_amended_witness :
    serVal sharedSetHeap 1 [0] (GVal.ref 0) = some (none, [0]) ∧
    serVal sharedDateHeap 1 [0] (GVal.ref 0) = some (some (J.str (isoString t0)), [0]) :=
  ⟨C10_amended.1 sharedSetHeap 0 [0] 0 (GNode.strset ["x"]) rfl
      (fun _ hcontra => GNode.noConfusion hcontra) (by simp),
    C10_amended.2.1 sharedDateHeap 0 [0] 0 t0 rfl⟩

end JsonProfile
